import Mathlib

/-!
Verification of the timetable-slot coalescing and formatting core
(`normalizeSlot`, `coalesceSlots`, `formatPeriodLabel`, `slotsTouch`,
`formatFullTimetable`, `formatClarifyMessage`) of the timetable backend.

The JavaScript source is shallowly embedded:
* JS values reaching the core (strings, integral numbers, `null`/`undefined`)
  are `JsVal`; rows that are `null` or not objects are `Option.none`.
* JS `Number(string)` coercion is embedded exactly for decimal, hexadecimal,
  octal and binary string numerals as an exact decimal `JNum` (`m / 10^k`);
  `Number("") = 0` and whitespace-only strings likewise yield `0`, while
  non-numeric strings and non-finite results (`"Infinity"`) yield `none`
  (the `NaN` outcome, which `Number.isFinite` also rejects).
  Equality/order of JS numbers (`===`, `<=`) are the exact decimal
  comparisons `JNum.eqv`/`JNum.le`; the period labels reaching these
  comparisons in the program are short decimal numerals, for which IEEE
  doubles are exact.
* `Array.prototype.sort` (guaranteed stable since ES2019) with comparator
  `c` is embedded as `List.mergeSort` (stable) with the relation
  `le a b := c a b <= 0`.
* The in-place accumulator mutation of the coalescing scan is an explicit
  left fold over an accumulator stack.
-/

namespace TT

/-- A JavaScript value as it reaches the timetable core: `null`/`undefined`,
a string, or an (integral) number. -/
inductive JsVal where
  | null : JsVal
  | str : String → JsVal
  | num : Int → JsVal
deriving DecidableEq, Repr

/-- JS truthiness for the values of `JsVal`: `null`/`undefined`, `""` and `0`
are falsy. -/
def truthy : JsVal → Bool
  | .null => false
  | .str s => s ≠ ""
  | .num n => n ≠ 0

/-- JS `String(v)` for the values of `JsVal` (`null` prints as "null"). -/
def jsToString : JsVal → String
  | .null => "null"
  | .str s => s
  | .num n => toString n

/-- JS whitespace (the characters `String.prototype.trim` and the
`Number` coercion strip). -/
def isJsWhitespace (c : Char) : Bool :=
  c = ' ' || c = '\t' || c = '\n' || c = '\r' ||
  c = Char.ofNat 11 || c = Char.ofNat 12 || c = Char.ofNat 160 ||
  c = Char.ofNat 0x2028 || c = Char.ofNat 0x2029 || c = Char.ofNat 0xFEFF

/-- Strip leading and trailing JS whitespace from a character list. -/
def jsTrimChars (l : List Char) : List Char :=
  ((l.dropWhile isJsWhitespace).reverse.dropWhile isJsWhitespace).reverse

/-- JS `String.prototype.trim`. -/
def jsTrim (s : String) : String := ⟨jsTrimChars s.data⟩

/-! ## Exact JS numbers -/

/-- `10 ^ k` on integers, by structural recursion (kernel-computable). -/
def pow10 : Nat → Int
  | 0 => 1
  | k + 1 => 10 * pow10 k

/-- An exact decimal `m / 10 ^ k`: the value of a finite JS number produced
by `Number(string)` on a numeric string literal. -/
structure JNum where
  m : Int
  k : Nat
deriving DecidableEq, Repr

/-- JS `===` on (finite) numbers: exact equality of the decimals. -/
def JNum.eqv (a b : JNum) : Bool :=
  decide (a.m * pow10 b.k = b.m * pow10 a.k)

/-- JS `<=` on (finite) numbers: exact comparison of the decimals. -/
def JNum.le (a b : JNum) : Bool :=
  decide (a.m * pow10 b.k ≤ b.m * pow10 a.k)

/-- JS `x + 1` on a (finite) number. -/
def JNum.addOne (a : JNum) : JNum := ⟨a.m + pow10 a.k, a.k⟩

/-- Numeric value of a decimal digit character. -/
def digitVal (c : Char) : Nat := c.toNat - 48

/-- Value of a non-empty all-digit character list, `none` otherwise. -/
def decDigitsVal (l : List Char) : Option Nat :=
  if l ≠ [] ∧ l.all Char.isDigit then
    some (l.foldl (fun a c => a * 10 + digitVal c) 0)
  else none

/-- Value of a hexadecimal digit character, `none` otherwise. -/
def hexDigitVal (c : Char) : Option Nat :=
  if c.isDigit then some (digitVal c)
  else if 'a' ≤ c ∧ c ≤ 'f' then some (c.toNat - 87)
  else if 'A' ≤ c ∧ c ≤ 'F' then some (c.toNat - 55)
  else none

/-- Value of a non-empty digit list in the given base (2, 8 or 16),
`none` if empty or some digit is out of range. -/
def radixVal (base : Nat) (l : List Char) : Option Nat :=
  if l = [] then none
  else l.foldl
    (fun acc c =>
      match acc, hexDigitVal c with
      | some a, some d => if d < base then some (a * base + d) else none
      | _, _ => none)
    (some 0)

/-- Split a character list at the first exponent marker `e`/`E`. -/
def splitAtExp : List Char → List Char × Option (List Char)
  | [] => ([], none)
  | c :: rest =>
    if c = 'e' ∨ c = 'E' then ([], some rest)
    else
      let p := splitAtExp rest
      (c :: p.1, p.2)

/-- Split a character list at the first decimal point. -/
def splitAtDot : List Char → List Char × Option (List Char)
  | [] => ([], none)
  | c :: rest =>
    if c = '.' then ([], some rest)
    else
      let p := splitAtDot rest
      (c :: p.1, p.2)

/-- Unchecked value of a digit list. -/
def digitsFold (l : List Char) : Nat :=
  l.foldl (fun a c => a * 10 + digitVal c) 0

/-- Parse the mantissa of a JS decimal numeral: `digits`, `digits.digits?`
or `.digits` (at least one digit in total). -/
def parseMantissa (l : List Char) : Option JNum :=
  match splitAtDot l with
  | (intPart, none) => (decDigitsVal intPart).map (fun n => ⟨(n : Int), 0⟩)
  | (intPart, some fracPart) =>
    if intPart = [] ∧ fracPart = [] then none
    else if intPart.all Char.isDigit ∧ fracPart.all Char.isDigit then
      some ⟨(digitsFold (intPart ++ fracPart) : Int), fracPart.length⟩
    else none

/-- Parse a (signed) exponent: optional sign then digits. -/
def parseExponent (l : List Char) : Option Int :=
  match l with
  | '+' :: r => (decDigitsVal r).map Int.ofNat
  | '-' :: r => (decDigitsVal r).map (fun n => -(n : Int))
  | r => (decDigitsVal r).map Int.ofNat

/-- Scale an exact decimal by `10 ^ e`. -/
def applyExp (q : JNum) : Int → JNum
  | .ofNat n => ⟨q.m * pow10 n, q.k⟩
  | .negSucc n => ⟨q.m, q.k + (n + 1)⟩

/-- Parse an unsigned JS decimal numeral with optional exponent part. -/
def parseUnsignedDec (l : List Char) : Option JNum :=
  match splitAtExp l with
  | (mant, none) => parseMantissa mant
  | (mant, some ex) =>
    match parseMantissa mant, parseExponent ex with
    | some q, some e => some (applyExp q e)
    | _, _ => none

/-- Embedding of the source's `parsePeriodNumber`:
`Number(value)` filtered through `Number.isFinite` (non-finite results and
`NaN` both come out as `none`).  Trims JS whitespace; the empty (or
whitespace-only) string coerces to `0`; decimal numerals may carry a sign,
a fraction and an exponent; `0x`/`0o`/`0b` radix numerals are unsigned;
`"Infinity"` is non-finite; anything else is `NaN`. -/
def parsePeriodNumber (value : String) : Option JNum :=
  match jsTrimChars value.data with
  | [] => some ⟨0, 0⟩
  | '0' :: 'x' :: r => (radixVal 16 r).map (fun n => ⟨(n : Int), 0⟩)
  | '0' :: 'X' :: r => (radixVal 16 r).map (fun n => ⟨(n : Int), 0⟩)
  | '0' :: 'o' :: r => (radixVal 8 r).map (fun n => ⟨(n : Int), 0⟩)
  | '0' :: 'O' :: r => (radixVal 8 r).map (fun n => ⟨(n : Int), 0⟩)
  | '0' :: 'b' :: r => (radixVal 2 r).map (fun n => ⟨(n : Int), 0⟩)
  | '0' :: 'B' :: r => (radixVal 2 r).map (fun n => ⟨(n : Int), 0⟩)
  | t =>
    let sb : Int × List Char :=
      match t with
      | '+' :: r => (1, r)
      | '-' :: r => (-1, r)
      | r => (1, r)
    if sb.2 = "Infinity".data then none
    else (parseUnsignedDec sb.2).map (fun q => ⟨sb.1 * q.m, q.k⟩)

/-- Embedding of the source's `timeToMinutes`: the regular expression
match against the anchored pattern of one or two digit characters, a colon,
and exactly two digit characters, giving minutes since midnight;
anything else is `NaN` (`none`). -/
def timeToMinutes (value : String) : Option Nat :=
  match value.data with
  | [h1, ':', m1, m2] =>
    if h1.isDigit ∧ m1.isDigit ∧ m2.isDigit then
      some (digitVal h1 * 60 + (digitVal m1 * 10 + digitVal m2))
    else none
  | [h1, h2, ':', m1, m2] =>
    if h1.isDigit ∧ h2.isDigit ∧ m1.isDigit ∧ m2.isDigit then
      some ((digitVal h1 * 10 + digitVal h2) * 60 + (digitVal m1 * 10 + digitVal m2))
    else none
  | _ => none

/-! ## Slots, normalization, coalescing -/

/-- The fields of a raw timetable row object; a field the object lacks (or
holds `undefined`) is `JsVal.null`.  A row that is `null` or not an object
at all is represented as `Option.none` at the use sites. -/
structure RawSlot where
  Weekday : JsVal
  Period : JsVal
  Start : JsVal
  End : JsVal
  Subject : JsVal
  Class : JsVal
  Room : JsVal
deriving DecidableEq, Repr

/-- A normalized slot: the six display fields trimmed to strings plus the
three lowercase grouping keys (named `_subjectKey`, `_classKey`, `_roomKey`
in the source). -/
structure Slot where
  Period : String
  Start : String
  End : String
  Subject : String
  Class : String
  Room : String
  subjectKey : String
  classKey : String
  roomKey : String
deriving DecidableEq, Repr

/-- The source's local `toTrimmed`: `null`/`undefined` become `""`, any
other value is stringified and trimmed. -/
def toTrimmed : JsVal → String
  | .null => ""
  | v => jsTrim (jsToString v)

/-- JS `String.prototype.toLowerCase`, modelled on the ASCII range (the
case conversion the grouping keys rely on). -/
def jsToLower (s : String) : String := ⟨s.data.map Char.toLower⟩

/-- Embedding of the source's `normalizeKey`: lowercase of a truthy string,
`""` for the empty string. -/
def normalizeKey (value : String) : String :=
  if value ≠ "" then jsToLower value else ""

/-- Embedding of the source's `normalizeSlot`: `null`/non-object rows are
rejected (`none`); otherwise all six fields are trimmed and the three
grouping keys derived. -/
def normalizeSlot : Option RawSlot → Option Slot
  | none => none
  | some raw =>
    let subject := toTrimmed raw.Subject
    let className := toTrimmed raw.Class
    let room := toTrimmed raw.Room
    some
      { Period := toTrimmed raw.Period
        Start := toTrimmed raw.Start
        End := toTrimmed raw.End
        Subject := subject
        Class := className
        Room := room
        subjectKey := normalizeKey subject
        classKey := normalizeKey className
        roomKey := normalizeKey room }

/-- The coalescing accumulator (`MergedSlot`-in-progress): the merged rows'
period labels plus the display fields and grouping keys. -/
structure Acc where
  periodsRaw : List String
  Start : String
  End : String
  Subject : String
  Class : String
  Room : String
  subjectKey : String
  classKey : String
  roomKey : String
deriving DecidableEq, Repr

/-- Embedding of the source's `sameSlotGroup`: the three grouping keys are
pairwise equal. -/
def sameSlotGroup (current : Acc) (next : Slot) : Bool :=
  decide (current.subjectKey = next.subjectKey) &&
  decide (current.classKey = next.classKey) &&
  decide (current.roomKey = next.roomKey)

/-- The period half of `slotsTouch`: the accumulator's last period label and
the next slot's period label both coerce to finite numbers and the next is
the last plus one.  An empty `periodsRaw` indexes to `undefined`, whose
number coercion is `NaN` (`none`). -/
def slotsTouchPeriod (current : Acc) (next : Slot) : Bool :=
  let lastPeriodNum :=
    match current.periodsRaw.getLast? with
    | some p => parsePeriodNumber p
    | none => none
  match lastPeriodNum, parsePeriodNumber next.Period with
  | some lastNum, some nextNum => JNum.eqv nextNum (JNum.addOne lastNum)
  | _, _ => false

/-- Embedding of the source's `slotsTouch`: if the accumulator's `End` and
the next slot's `Start` both parse as times and are equal, the slots touch;
otherwise the decision falls through to the period comparison. -/
def slotsTouch (current : Acc) (next : Slot) : Bool :=
  match timeToMinutes current.End, timeToMinutes next.Start with
  | some lastEnd, some nextStart =>
    if nextStart = lastEnd then true else slotsTouchPeriod current next
  | _, _ => slotsTouchPeriod current next

/-- A fresh accumulator opened from one normalized slot. -/
def initAcc (slot : Slot) : Acc :=
  { periodsRaw := [slot.Period]
    Start := slot.Start
    End := slot.End
    Subject := slot.Subject
    Class := slot.Class
    Room := slot.Room
    subjectKey := slot.subjectKey
    classKey := slot.classKey
    roomKey := slot.roomKey }

/-- The in-place mutation performed on a merge: `End` is overwritten only
when the next slot's `End` is truthy, `Start` is adopted only when the
accumulator's `Start` is empty and the next slot's is truthy, and the next
slot's period label is appended. -/
def mergeAcc (last : Acc) (slot : Slot) : Acc :=
  { last with
    End := if slot.End ≠ "" then slot.End else last.End
    Start := if last.Start = "" ∧ slot.Start ≠ "" then slot.Start else last.Start
    periodsRaw := last.periodsRaw ++ [slot.Period] }

/-- One step of the coalescing scan; the accumulator stack is kept in
reverse order (the head is the most recently opened accumulator, i.e. the
`merged[merged.length - 1]` the source inspects). -/
def coalesceStep (merged : List Acc) (slot : Slot) : List Acc :=
  match merged with
  | [] => [initAcc slot]
  | last :: rest =>
    if sameSlotGroup last slot && slotsTouch last slot then mergeAcc last slot :: rest
    else initAcc slot :: last :: rest

/-- The period half of the sort comparator, as the relation
`comparator result <= 0`: if both period numbers are finite and differ the
numeric comparison decides, otherwise the comparator returns `0`. -/
def periodCompareLe (a b : Slot) : Bool :=
  match parsePeriodNumber a.Period, parsePeriodNumber b.Period with
  | some ap, some bp => if JNum.eqv ap bp then true else JNum.le ap bp
  | _, _ => true

/-- The source's sort comparator as the relation `comparator result <= 0`:
start times in minutes decide when both parse and differ, otherwise the
period comparison decides. -/
def slotLe (a b : Slot) : Bool :=
  match timeToMinutes a.Start, timeToMinutes b.Start with
  | some am, some bm => if am ≠ bm then decide (am ≤ bm) else periodCompareLe a b
  | _, _ => periodCompareLe a b

/-- The stable sort of normalized slots by the source's comparator. -/
def sortSlots (l : List Slot) : List Slot := l.mergeSort slotLe

/-- Tail of the `every` check of `formatPeriodLabel`: each subsequent
number is finite and equals its predecessor plus one. -/
def seqFrom (prev : JNum) : List (Option JNum) → Bool
  | [] => true
  | some n :: rest => JNum.eqv n (JNum.addOne prev) && seqFrom n rest
  | none :: _ => false

/-- The `every` check of `formatPeriodLabel`: every number is finite and
the sequence increases by exactly one at each step. -/
def sequentialNums : List (Option JNum) → Bool
  | [] => true
  | some n :: rest => seqFrom n rest
  | none :: _ => false

/-- Embedding of the source's `formatPeriodLabel`: trim the labels and drop
the falsy ones; an empty list renders as an em dash, a single label renders
unchanged, a consecutive ascending numeric sequence renders as
`"first-last"`, and anything else joins the filtered labels (duplicates
retained) with `", "`. -/
def formatPeriodLabel (periodsRaw : List String) : String :=
  let filtered := (periodsRaw.map (fun p => jsTrim p)).filter (fun p => p ≠ "")
  match filtered with
  | [] => "—"
  | [p] => p
  | p :: rest =>
    let numbers := (p :: rest).map parsePeriodNumber
    if sequentialNums numbers then p ++ "-" ++ (p :: rest).getLastD ""
    else String.intercalate ", " (p :: rest)

/-- A merged slot as returned by `coalesceSlots`. -/
structure Merged where
  Period : String
  Start : String
  End : String
  Subject : String
  Class : String
  Room : String
deriving DecidableEq, Repr

/-- The final projection of an accumulator to a merged slot. -/
def renderAcc (item : Acc) : Merged :=
  { Period := formatPeriodLabel item.periodsRaw
    Start := item.Start
    End := item.End
    Subject := item.Subject
    Class := item.Class
    Room := item.Room }

/-- The coalescing scan over already-normalized, already-sorted slots. -/
def coalesceGroups (slots : List Slot) : List Acc :=
  (slots.foldl coalesceStep []).reverse

/-- Embedding of the source's `coalesceSlots`: normalize (dropping failed
rows), stable-sort by the comparator, scan-merge, then render each
accumulator.  A non-array argument never occurs at the call sites (they
guard with `Array.isArray`); the empty array returns early. -/
def coalesceSlots (slots : List (Option RawSlot)) : List Merged :=
  if slots = [] then []
  else (coalesceGroups (sortSlots (slots.filterMap normalizeSlot))).map renderAcc

/-! ## The timetable formatter -/

/-- Embedding of the source's `coerceText` (the display-text rule of the
table cells): `null`/`undefined` render as an em dash, numbers as their
decimal string, strings trimmed with the em dash fallback when empty. -/
def coerceText : JsVal → String
  | .null => "—"
  | .num n => toString n
  | .str s => if jsTrim s = "" then "—" else jsTrim s

/-- The fixed weekday ordering of the formatter. -/
def dayOrder : List String := ["Mon", "Tue", "Wed", "Thu", "Fri", "Sat", "Sun"]

/-- The `dayNames` lookup object: weekday code to spelled-out name.
Disclosed idealization: in the source, `dayNames[code]` on an
`Object.prototype` property name ("constructor", "toString", ...) would
find a truthy inherited function and `|| code` would render that
function's source text; this model returns `none` there and falls back to
the raw code.  No theorem below exercises such a code. -/
def dayNames : String → Option String
  | "Mon" => some "Monday"
  | "Tue" => some "Tuesday"
  | "Wed" => some "Wednesday"
  | "Thu" => some "Thursday"
  | "Fri" => some "Friday"
  | "Sat" => some "Saturday"
  | "Sun" => some "Sunday"
  | _ => none

/-- Embedding of the source's `orderIndex`: `indexOf` with strict equality
(a non-string key never equals a string element), `-1` replaced by
`order.length + 1`. -/
def orderIndex (order : List String) (key : JsVal) : Nat :=
  match key with
  | .str s =>
    match order.findIdx? (fun w => decide (w = s)) with
    | some i => i
    | none => order.length + 1
  | _ => order.length + 1

/-- A day group as consumed by the formatter: a weekday value and the
day's slot array (`none` when the `slots` field is not an array). -/
structure DayGroup where
  Weekday : JsVal
  slots : Option (List (Option RawSlot))
deriving DecidableEq, Repr

/-- The day-sort comparator `orderIndex(a.Weekday) - orderIndex(b.Weekday)`
as a `<= 0` relation. -/
def dayLe (a b : DayGroup) : Bool :=
  decide (orderIndex dayOrder a.Weekday ≤ orderIndex dayOrder b.Weekday)

/-- The stable sort of day groups by `orderIndex`. -/
def sortDays (grouped : List DayGroup) : List DayGroup :=
  grouped.mergeSort dayLe

/-- `grouped[day].push(...)` on the key-bucket map, preserving first-seen
key order. -/
def insertRow : List (String × List RawSlot) → String → RawSlot → List (String × List RawSlot)
  | [], k, r => [(k, [r])]
  | (k', rs) :: t, k, r =>
    if k' = k then (k', rs ++ [r]) :: t else (k', rs) :: insertRow t k r

/-- Bucket lookup by key. -/
def lookupBucket : List (String × List RawSlot) → String → List RawSlot
  | [], _ => []
  | (k', rs) :: t, k => if k' = k then rs else lookupBucket t k

/-- `value ?? ""`: the nullish-coalescing default applied to each copied
field. -/
def nullishStr : JsVal → JsVal
  | .null => .str ""
  | v => v

/-- Whether a string is a canonical array-index key (JS objects iterate
such keys first, in ascending numeric order). -/
def isArrayIndexKey (s : String) : Bool :=
  match s.data with
  | [] => false
  | c :: rest =>
    c.isDigit && rest.all Char.isDigit && (decide (rest = []) || decide (c ≠ '0')) &&
      decide (digitsFold (c :: rest) < 4294967295)

/-- `Object.keys` on the bucket map: array-index keys first in ascending
numeric order, then the remaining keys in insertion order. -/
def objectKeys (m : List (String × List RawSlot)) : List String :=
  let keys := m.map Prod.fst
  (keys.filter isArrayIndexKey).mergeSort (fun a b => decide (digitsFold a.data ≤ digitsFold b.data))
    ++ keys.filter (fun k => !isArrayIndexKey k)

/-- The bucket key of a row: `row.Weekday || "Unknown"`, stringified by the
object-key coercion. -/
def rowBucketKey (r : RawSlot) : String :=
  jsToString (if truthy r.Weekday then r.Weekday else .str "Unknown")

/-- The object pushed into a bucket: the six fields with the `?? ""`
defaults (and no `Weekday` field of its own). -/
def rowBucketSlot (r : RawSlot) : RawSlot :=
  { Weekday := .null
    Period := nullishStr r.Period
    Start := nullishStr r.Start
    End := nullishStr r.End
    Subject := nullishStr r.Subject
    Class := nullishStr r.Class
    Room := nullishStr r.Room }

/-- Embedding of the source's `buildGroupedFromRows`: partition the rows by
`Weekday` (falsy weekdays go to the `"Unknown"` bucket, `null`/non-object
rows are skipped, absent fields default to `""`), then order the buckets by
`orderIndex` and wrap them as day groups keyed by the (stringified) bucket
key.  This total version models the bucket object as an association list
and therefore collapses one error path of the source: a `Weekday` equal to
an `Object.prototype` property name makes `if (!grouped[day])` see a truthy
inherited value so that `grouped[day].push` throws a TypeError.  The
faithful version with that error path is `buildGroupedFromRowsE` below;
`buildGroupedFromRowsE_ok` proves the two agree whenever the source does
not throw. -/
def buildGroupedFromRows (rows : Option (List (Option RawSlot))) (order : List String) :
    List DayGroup :=
  match rows with
  | none => []
  | some rs =>
    if rs = [] then []
    else
      let m := rs.foldl
        (fun m row =>
          match row with
          | none => m
          | some r => insertRow m (rowBucketKey r) (rowBucketSlot r)) []
      let sortedKeys :=
        (objectKeys m).mergeSort
          (fun a b => decide (orderIndex order (.str a) ≤ orderIndex order (.str b)))
      sortedKeys.map (fun k => { Weekday := .str k, slots := some ((lookupBucket m k).map some) })

/-- The own property names of `Object.prototype` (all of whose values are
truthy: methods, and the `__proto__` accessor yielding `Object.prototype`
itself). -/
def objectProtoKeys : List String :=
  ["constructor", "hasOwnProperty", "isPrototypeOf", "propertyIsEnumerable",
   "toLocaleString", "toString", "valueOf",
   "__proto__", "__defineGetter__", "__defineSetter__", "__lookupGetter__", "__lookupSetter__"]

/-- Faithful `if (!grouped[day]) grouped[day] = []; grouped[day].push(row)`
on the bare object literal `{}`: an own key holds an array (truthy even
when empty) and is pushed to; a missing key whose name is inherited from
`Object.prototype` finds a truthy non-array value, skips initialization,
and `.push` throws a TypeError; any other missing key is initialized and
pushed to. -/
def insertRowE (m : List (String × List RawSlot)) (k : String) (r : RawSlot) :
    Except String (List (String × List RawSlot)) :=
  if (m.map Prod.fst).contains k then .ok (insertRow m k r)
  else if objectProtoKeys.contains k then
    .error "TypeError: grouped[day].push is not a function"
  else .ok (insertRow m k r)

/-- The source's `buildGroupedFromRows` with the bucket object's
prototype-chain error path modelled faithfully: identical to
`buildGroupedFromRows` except that a row whose bucket key is an
`Object.prototype` property name (with no own bucket yet) raises the
TypeError the source would throw. -/
def buildGroupedFromRowsE (rows : Option (List (Option RawSlot))) (order : List String) :
    Except String (List DayGroup) :=
  match rows with
  | none => .ok []
  | some rs =>
    if rs = [] then .ok []
    else do
      let m ← rs.foldlM
        (fun m row =>
          match row with
          | none => pure m
          | some r => insertRowE m (rowBucketKey r) (rowBucketSlot r)) []
      let sortedKeys :=
        (objectKeys m).mergeSort
          (fun a b => decide (orderIndex order (.str a) ≤ orderIndex order (.str b)))
      pure (sortedKeys.map (fun k => { Weekday := .str k, slots := some ((lookupBucket m k).map some) }))

/-- The timetable payload consumed by `formatFullTimetable` (`none` for a
`grouped`/`rows` field that is absent or not an array). -/
structure Timetable where
  teacher : JsVal
  grouped : Option (List DayGroup)
  rows : Option (List (Option RawSlot))
deriving DecidableEq, Repr

/-- `Array.prototype.join("\n")`. -/
def joinNl : List String → String
  | [] => ""
  | [x] => x
  | x :: xs => x ++ "\n" ++ joinNl xs

/-- One rendered table row of the per-day Markdown table. -/
def dayRowLine (slot : Merged) : String :=
  "| " ++ coerceText (.str slot.Period) ++ " | " ++ coerceText (.str slot.Start) ++ " | " ++
    coerceText (.str slot.End) ++ " | " ++ coerceText (.str slot.Subject) ++ " | " ++
    coerceText (.str slot.Class) ++ " | " ++ coerceText (.str slot.Room) ++ " |"

/-- The lines one day group contributes to the output: nothing when the
day coalesces to no slots, otherwise the day heading (spelled-out name
with the raw code as fallback) and the Markdown table. -/
def daySection (day : DayGroup) : List String :=
  let slots := coalesceSlots (day.slots.getD [])
  if slots = [] then []
  else
    ("\n### " ++
        match dayNames (jsToString day.Weekday) with
        | some full => full
        | none => jsToString day.Weekday) ::
      "| Period | Start | End | Subject | Class | Room |" ::
        "| --- | --- | --- | --- | --- | --- |" :: slots.map dayRowLine

/-- Embedding of the source's `formatFullTimetable` (the `question` field
of its argument object is unused by the source and omitted here). -/
def formatFullTimetable (timetable : Option Timetable) (title : JsVal) (notes : JsVal)
    (teachers : Option (List JsVal)) : String :=
  match timetable with
  | none => "No timetable data provided."
  | some tt =>
    let teacherName : JsVal :=
      if truthy tt.teacher then tt.teacher
      else
        match teachers with
        | some (t0 :: _) => if truthy t0 then t0 else .str "Teacher"
        | _ => .str "Teacher"
    let heading : String :=
      if truthy title then jsToString title else jsToString teacherName ++ " timetable"
    let grouped : List DayGroup :=
      match tt.grouped with
      | some g => if g ≠ [] then g else buildGroupedFromRows tt.rows dayOrder
      | none => buildGroupedFromRows tt.rows dayOrder
    if grouped = [] then "No timetable entries found for " ++ jsToString teacherName ++ "."
    else
      let sections :=
        ["## " ++ heading] ++ (if truthy notes then ["_" ++ jsToString notes ++ "_"] else []) ++
          ((sortDays grouped).map daySection).flatten
      jsTrim (joinNl sections)

/-! ## The clarify message -/

/-- The clarify descriptor fields `formatClarifyMessage` reads (`none` for
a `candidates` field that is absent or not an array). -/
structure Clarify where
  candidates : Option (List String)
  input : JsVal
  message : JsVal
deriving DecidableEq, Repr

/-- `new Set(...)` insertion-order deduplication, with the already-seen
elements as the accumulator. -/
def dedupFirstAux (seen : List String) : List String → List String
  | [] => []
  | x :: xs => if x ∈ seen then dedupFirstAux seen xs else x :: dedupFirstAux (seen ++ [x]) xs

/-- `Array.from(new Set(l))`: each distinct element once, in first-seen
order. -/
def dedupFirst (l : List String) : List String := dedupFirstAux [] l

/-- Embedding of the source's `formatClarifyMessage`.  Note that in the
no-candidates branch the source filters the assembled lines through
`Boolean`, which also removes the empty separator line. -/
def formatClarifyMessage (clarify : Clarify) (question : JsVal) : String :=
  let candidates := clarify.candidates.getD []
  let uniqueCandidates := dedupFirst (candidates.filter (fun c => c ≠ ""))
  let picked : String := if truthy clarify.input then jsToString clarify.input else ""
  let title : String :=
    if truthy clarify.message then jsToString clarify.message else "Multiple matches found."
  if uniqueCandidates = [] then
    joinNl
      ((["**" ++ title ++ "**", "",
          "“" ++ picked ++ "” matches multiple teachers. Please provide a more specific name so I can continue.",
          if truthy question then "Original question: _" ++ jsToString question ++ "_" else ""]).filter
        (fun s => s ≠ ""))
  else
    joinNl
      ["**" ++ title ++ "**", "",
        "“" ++ picked ++ "” matches multiple teachers. Please select one of the following:", "",
        joinNl (uniqueCandidates.map (fun name => "- " ++ name)), "",
        "Reply with the full name to continue."]

/-! ## The coalescing scan, augmented with its constituent runs

`runsOf` performs the same scan as `coalesceGroups` but records, for each
accumulator, the normalized slots it was built from (the first constituent
and the later merged ones, in scan order).  `accOfRun` replays the
source's merge mutations over a recorded run. -/

/-- The accumulator obtained by opening a group at `f` and merging the
slots of `rest` into it in order. -/
def accOfRun (f : Slot) (rest : List Slot) : Acc := rest.foldl mergeAcc (initAcc f)

/-- One step of the constituent-recording scan (stack in reverse order),
merging under exactly the same condition as `coalesceStep`. -/
def runStep (acc : List (Slot × List Slot)) (s : Slot) : List (Slot × List Slot) :=
  match acc with
  | [] => [(s, [])]
  | (f, rest) :: t =>
    if sameSlotGroup (accOfRun f rest) s && slotsTouch (accOfRun f rest) s then
      (f, rest ++ [s]) :: t
    else (s, []) :: (f, rest) :: t

/-- The runs of constituents underlying the coalescing scan, in output
order. -/
def runsOf (slots : List Slot) : List (Slot × List Slot) := (slots.foldl runStep []).reverse

/-! ## Specification-side definitions (from the claims' wording) -/

/-- A strict integer-numeral parse: optional sign followed by one or more
decimal digits (what "parses as an integer" means in the claims; in
particular the empty string does not parse). -/
def claimIntParse (s : String) : Option Int :=
  match s.data with
  | '+' :: r => (decDigitsVal r).map Int.ofNat
  | '-' :: r => (decDigitsVal r).map (fun n => -(n : Int))
  | l => (decDigitsVal l).map Int.ofNat

/-- The touching predicate exactly as claim C1 words it: the times both
parse and are equal, or the two period labels both parse as integers and
the next is the last plus one. -/
def specTouchC1 (current : Acc) (next : Slot) : Bool :=
  (match timeToMinutes current.End, timeToMinutes next.Start with
    | some e, some s => decide (e = s)
    | _, _ => false) ||
  (match (current.periodsRaw.getLast?).bind claimIntParse, claimIntParse next.Period with
    | some l, some n => decide (n = l + 1)
    | _, _ => false)

/-- The touching predicate as the code actually decides it (the amended
claim): the times both parse and are equal, or both period labels coerce to
finite JS numbers (the empty string coercing to `0`, non-integer numerals
allowed) and the next number is the last plus one. -/
def specTouchAmended (current : Acc) (next : Slot) : Bool :=
  (match timeToMinutes current.End, timeToMinutes next.Start with
    | some e, some s => decide (e = s)
    | _, _ => false) ||
  (match (current.periodsRaw.getLast?).bind parsePeriodNumber, parsePeriodNumber next.Period with
    | some l, some n => JNum.eqv n (JNum.addOne l)
    | _, _ => false)

/-- Tail of the claim-side consecutive-integers check. -/
def intSeqFrom (prev : Int) : List (Option Int) → Bool
  | [] => true
  | some n :: rest => decide (n = prev + 1) && intSeqFrom n rest
  | none :: _ => false

/-- Claim-side: every label parses as an integer and the integers are
consecutive ascending. -/
def intSequential : List (Option Int) → Bool
  | [] => true
  | some n :: rest => intSeqFrom n rest
  | none :: _ => false

/-- The display-label rule exactly as claim C3 words it: a consecutive
ascending all-integer multi-label list renders as `"first-last"`, any other
multi-label list joins the distinct labels — each appearing exactly once —
with `", "`. -/
def specLabelC3 (periodsRaw : List String) : String :=
  let filtered := (periodsRaw.map (fun p => jsTrim p)).filter (fun p => p ≠ "")
  match filtered with
  | [] => "—"
  | [p] => p
  | l =>
    if intSequential (l.map claimIntParse) then l.headD "" ++ "-" ++ l.getLastD ""
    else String.intercalate ", " (dedupFirst l)

/-- A zipped-pairs rendering of the sequential check (used to state the
amended claim C3 independently of the implementation's recursion). -/
def pairOk (p : Option JNum × Option JNum) : Bool :=
  match p.1, p.2 with
  | some a, some b => JNum.eqv b (JNum.addOne a)
  | _, _ => false

/-- Amended-claim side: every label coerces to a finite JS number and each
adjacent pair increases by exactly one. -/
def specSequentialB (l : List String) : Bool :=
  (l.map parsePeriodNumber).all Option.isSome &&
    (((l.map parsePeriodNumber).zip (l.map parsePeriodNumber).tail).all pairOk)

/-- The display-label rule as amended: multi-label lists render as a range
when every label coerces to a finite number increasing by one at each step,
and otherwise join the filtered labels, duplicates retained, with `", "`. -/
def specLabelAmended (periodsRaw : List String) : String :=
  let filtered := (periodsRaw.map (fun p => jsTrim p)).filter (fun p => p ≠ "")
  if filtered.length = 0 then "—"
  else if filtered.length = 1 then filtered.headD ""
  else if specSequentialB filtered then filtered.headD "" ++ "-" ++ filtered.getLastD ""
  else String.intercalate ", " filtered

/-- The teacher-name fallback chain as claim C7 words it: `timetable.teacher`
if truthy, else the first element of `teachers` when that is an array with a
truthy first element, else the literal `"Teacher"`. -/
def specTeacherC7 (teacher : JsVal) (teachers : Option (List JsVal)) : JsVal :=
  if truthy teacher then teacher
  else
    match teachers with
    | some (t0 :: _) => if truthy t0 then t0 else .str "Teacher"
    | _ => .str "Teacher"

/-- Re-embedding of a normalized slot as the raw row object it is in the
source (a plain object with the six display fields as string values; the
grouping-key fields of the object are not read by `normalizeSlot`). -/
def slotToRaw (s : Slot) : Option RawSlot :=
  some
    { Weekday := .null
      Period := .str s.Period
      Start := .str s.Start
      End := .str s.End
      Subject := .str s.Subject
      Class := .str s.Class
      Room := .str s.Room }

/-- The filtered candidate list of a clarify descriptor (array guard plus
the `Boolean` filter). -/
def clarifyCandidates (d : Clarify) : List String :=
  (d.candidates.getD []).filter (fun c => c ≠ "")

/-- Bool-valued non-emptiness of a string (the truthiness filter). -/
def nonEmptyStr (x : String) : Bool := x ≠ ""

/-! ## Helper lemmas: lists and strings -/

/-- A two-element `mergeSort` is a single comparison. -/
theorem mergeSort_pair {α : Type} (le : α → α → Bool) (a b : α) :
    [a, b].mergeSort le = if le a b then [a, b] else [b, a] := by
  rw [List.mergeSort]
  simp [List.mergeSort, List.merge]

/-- `dropWhile` is idempotent. -/
theorem dropWhile_dropWhile_self {α : Type} (p : α → Bool) :
    ∀ l : List α, (l.dropWhile p).dropWhile p = l.dropWhile p := by
  intro l
  induction l with
  | nil => rfl
  | cons a t ih =>
    by_cases h : p a
    · simp [List.dropWhile_cons, h, ih]
    · simp [List.dropWhile_cons, h]

/-- The head of a `dropWhile` result fails the predicate. -/
theorem head_dropWhile_false {α : Type} (p : α → Bool) :
    ∀ l : List α, ∀ c, (l.dropWhile p).head? = some c → p c = false := by
  intro l
  induction l with
  | nil => intro c h; simp at h
  | cons a t ih =>
    intro c h
    by_cases ha : p a
    · exact ih c (by simpa [List.dropWhile_cons, ha] using h)
    · simp [List.dropWhile_cons, ha] at h
      simpa [← h] using ha

/-- A non-empty `dropWhile` result keeps the last element of the list. -/
theorem getLast?_dropWhile {α : Type} (p : α → Bool) :
    ∀ l : List α, l.dropWhile p ≠ [] → (l.dropWhile p).getLast? = l.getLast? := by
  intro l
  induction l with
  | nil => intro h; simp [List.dropWhile] at h
  | cons a t ih =>
    intro h
    by_cases ha : p a
    · rw [List.dropWhile_cons_of_pos ha] at h ⊢
      rw [ih h]
      have ht : t ≠ [] := by
        intro he
        exact h (by simp [he, List.dropWhile])
      rw [List.getLast?_cons]
      cases htl : t.getLast? with
      | none => exact absurd (List.getLast?_eq_none_iff.mp htl) ht
      | some x => rfl
    · rw [List.dropWhile_cons_of_neg ha]

/-- `jsTrimChars` is idempotent. -/
theorem jsTrimChars_idem (l : List Char) : jsTrimChars (jsTrimChars l) = jsTrimChars l := by
  set p := isJsWhitespace with hp
  set A := l.dropWhile p with hA
  set B := A.reverse.dropWhile p with hB
  have hL : jsTrimChars l = B.reverse := rfl
  have hBB : B.dropWhile p = B := by rw [hB, dropWhile_dropWhile_self]
  have hBrev : B.reverse.dropWhile p = B.reverse := by
    cases hc : B.reverse.head? with
    | none =>
      have : B.reverse = [] := by
        cases hBr : B.reverse with
        | nil => rfl
        | cons x xs => rw [hBr] at hc; simp at hc
      simp [this, List.dropWhile]
    | some c =>
      have hcBlast : B.getLast? = some c := by rwa [List.head?_reverse] at hc
      have hBne : B ≠ [] := by
        intro he
        rw [he] at hcBlast
        simp at hcBlast
      have hAlast : (A.reverse).getLast? = some c := by
        rw [← getLast?_dropWhile p A.reverse (by rwa [← hB]), ← hB]
        exact hcBlast
      have hAhead : A.head? = some c := by rwa [List.getLast?_reverse] at hAlast
      have hpc : p c = false := head_dropWhile_false p l c (by rwa [← hA])
      cases hBr : B.reverse with
      | nil => simp [List.dropWhile]
      | cons x xs =>
        have : x = c := by rw [hBr] at hc; simp at hc; exact hc
        rw [this, List.dropWhile_cons_of_neg (by simp [hpc])]
  rw [hL]
  show ((B.reverse.dropWhile p).reverse.dropWhile p).reverse = B.reverse
  rw [hBrev, List.reverse_reverse, hBB]

/-- `jsTrim` is idempotent. -/
theorem jsTrim_idem (s : String) : jsTrim (jsTrim s) = jsTrim s := by
  show (⟨jsTrimChars (jsTrimChars s.data)⟩ : String) = ⟨jsTrimChars s.data⟩
  rw [jsTrimChars_idem]

/-- `toTrimmed` on a string value is a plain trim. -/
theorem toTrimmed_str (x : String) : toTrimmed (.str x) = jsTrim x := rfl

/-- Trimming a `toTrimmed` result changes nothing. -/
theorem jsTrim_toTrimmed (v : JsVal) : jsTrim (toTrimmed v) = toTrimmed v := by
  cases v with
  | null => rfl
  | str s => exact jsTrim_idem s
  | num n => exact jsTrim_idem (toString n)

/-! ## Helper lemmas: the coalescing scan -/

/-- The constituent-recording scan projects (via `accOfRun`) to the
source's scan, step by step. -/
theorem foldl_runStep_map (l : List Slot) :
    ∀ acc : List (Slot × List Slot),
      (l.foldl runStep acc).map (fun p => accOfRun p.1 p.2) =
        l.foldl coalesceStep (acc.map (fun p => accOfRun p.1 p.2)) := by
  induction l with
  | nil => intro acc; rfl
  | cons s t ih =>
    intro acc
    rw [List.foldl_cons, List.foldl_cons, ih]
    congr 1
    cases acc with
    | nil => rfl
    | cons hd tl =>
      obtain ⟨f, rest⟩ := hd
      by_cases hc : (sameSlotGroup (accOfRun f rest) s && slotsTouch (accOfRun f rest) s) = true
      · simp only [runStep, coalesceStep, List.map_cons, hc, if_pos]
        simp [accOfRun, List.foldl_append]
      · simp only [runStep, coalesceStep, List.map_cons, hc, if_neg]
        simp [accOfRun]

/-- The groups of the source's scan are exactly the replayed runs. -/
theorem coalesceGroups_eq_runsOf (l : List Slot) :
    coalesceGroups l = (runsOf l).map (fun p => accOfRun p.1 p.2) := by
  unfold coalesceGroups runsOf
  rw [List.map_reverse, foldl_runStep_map]
  rfl

/-- `coalesceSlots` without the (behaviour-preserving) early return of the
empty array. -/
theorem coalesceSlots_eq (rows : List (Option RawSlot)) :
    coalesceSlots rows =
      (coalesceGroups (sortSlots (rows.filterMap normalizeSlot))).map renderAcc := by
  by_cases h : rows = []
  · subst h
    simp [coalesceSlots, sortSlots, coalesceGroups]
  · simp [coalesceSlots, h]

/-- Merging never rewrites the `Subject` display field. -/
theorem foldl_mergeAcc_Subject :
    ∀ (rest : List Slot) (a : Acc), (rest.foldl mergeAcc a).Subject = a.Subject := by
  intro rest
  induction rest with
  | nil => intro a; rfl
  | cons s t ih => intro a; rw [List.foldl_cons, ih]; rfl

/-- Merging never rewrites the `Class` display field. -/
theorem foldl_mergeAcc_Class :
    ∀ (rest : List Slot) (a : Acc), (rest.foldl mergeAcc a).Class = a.Class := by
  intro rest
  induction rest with
  | nil => intro a; rfl
  | cons s t ih => intro a; rw [List.foldl_cons, ih]; rfl

/-- Merging never rewrites the `Room` display field. -/
theorem foldl_mergeAcc_Room :
    ∀ (rest : List Slot) (a : Acc), (rest.foldl mergeAcc a).Room = a.Room := by
  intro rest
  induction rest with
  | nil => intro a; rfl
  | cons s t ih => intro a; rw [List.foldl_cons, ih]; rfl

/-- Merging appends exactly the merged slots' period labels. -/
theorem foldl_mergeAcc_periodsRaw :
    ∀ (rest : List Slot) (a : Acc),
      (rest.foldl mergeAcc a).periodsRaw = a.periodsRaw ++ rest.map Slot.Period := by
  intro rest
  induction rest with
  | nil => intro a; simp
  | cons s t ih =>
    intro a
    rw [List.foldl_cons, ih]
    show (mergeAcc a s).periodsRaw ++ t.map Slot.Period = _
    simp [mergeAcc]

/-- After merging, `Start` is the accumulator's `Start` if non-empty, else
the first non-empty `Start` among the merged slots (else `""`). -/
theorem foldl_mergeAcc_Start :
    ∀ (rest : List Slot) (a : Acc),
      (rest.foldl mergeAcc a).Start =
        if a.Start = "" then ((rest.map Slot.Start).find? nonEmptyStr).getD "" else a.Start := by
  intro rest
  induction rest with
  | nil => intro a; by_cases h : a.Start = "" <;> simp [h]
  | cons s t ih =>
    intro a
    rw [List.foldl_cons, ih]
    by_cases ha : a.Start = ""
    · by_cases hs : s.Start = ""
      · simp [mergeAcc, ha, hs, List.find?_cons, nonEmptyStr]
      · simp [mergeAcc, ha, hs, List.find?_cons, nonEmptyStr]
    · simp [mergeAcc, ha]

/-- After merging, `End` is the last non-empty `End` among the merged
slots, defaulting to the accumulator's `End`. -/
theorem foldl_mergeAcc_End :
    ∀ (rest : List Slot) (a : Acc),
      (rest.foldl mergeAcc a).End =
        (((rest.map Slot.End).reverse).find? nonEmptyStr).getD a.End := by
  intro rest
  induction rest with
  | nil => intro a; simp
  | cons s t ih =>
    intro a
    rw [List.foldl_cons, ih]
    rw [List.map_cons, List.reverse_cons, List.find?_append]
    cases hf : ((t.map Slot.End).reverse).find? nonEmptyStr with
    | some x => simp [hf]
    | none =>
      by_cases hs : s.End = ""
      · simp [hf, mergeAcc, hs, List.find?, nonEmptyStr]
      · simp [hf, mergeAcc, hs, List.find?, nonEmptyStr]

/-- One scan step appends exactly the incoming slot's period label to the
flattened label lists. -/
theorem coalesceStep_flatten (acc : List Acc) (s : Slot) :
    (((coalesceStep acc s).reverse).map Acc.periodsRaw).flatten =
      ((acc.reverse).map Acc.periodsRaw).flatten ++ [s.Period] := by
  cases acc with
  | nil => simp [coalesceStep, initAcc]
  | cons last rest =>
    by_cases hc : (sameSlotGroup last s && slotsTouch last s) = true
    · simp [coalesceStep, hc, mergeAcc, initAcc]
    · simp [coalesceStep, hc, initAcc]

/-- The scan conserves the period labels of its input slots, in order. -/
theorem foldl_coalesceStep_flatten :
    ∀ (l : List Slot) (acc : List Acc),
      (((l.foldl coalesceStep acc).reverse).map Acc.periodsRaw).flatten =
        ((acc.reverse).map Acc.periodsRaw).flatten ++ l.map Slot.Period := by
  intro l
  induction l with
  | nil => intro acc; simp
  | cons s t ih =>
    intro acc
    rw [List.foldl_cons, ih, coalesceStep_flatten]
    simp

/-- Every group of the scan carries at least one period label. -/
theorem foldl_coalesceStep_ne_nil :
    ∀ (l : List Slot) (acc : List Acc),
      (∀ a ∈ acc, a.periodsRaw ≠ []) → ∀ a ∈ l.foldl coalesceStep acc, a.periodsRaw ≠ [] := by
  intro l
  induction l with
  | nil => intro acc h; exact h
  | cons s t ih =>
    intro acc h
    refine ih (coalesceStep acc s) ?_
    intro a ha
    cases acc with
    | nil =>
      simp [coalesceStep] at ha
      simp [ha, initAcc]
    | cons last rest =>
      by_cases hc : (sameSlotGroup last s && slotsTouch last s) = true
      · rw [show coalesceStep (last :: rest) s = mergeAcc last s :: rest by
          simp [coalesceStep, hc]] at ha
        rcases List.mem_cons.mp ha with h1 | h2
        · subst h1; simp [mergeAcc]
        · exact h a (List.mem_cons_of_mem _ h2)
      · rw [show coalesceStep (last :: rest) s = initAcc s :: last :: rest by
          simp [coalesceStep, hc]] at ha
        rcases List.mem_cons.mp ha with h1 | h2
        · subst h1; simp [initAcc]
        · exact h a h2

/-- A list of non-empty blocks is no longer than its flattening. -/
theorem length_le_flatten_length :
    ∀ ls : List (List String), (∀ x ∈ ls, x ≠ []) → ls.length ≤ ls.flatten.length := by
  intro ls
  induction ls with
  | nil => intro _; simp
  | cons x t ih =>
    intro h
    have hx : x ≠ [] := h x (by simp)
    have hxl : 1 ≤ x.length := by
      cases x with
      | nil => exact absurd rfl hx
      | cons y ys => simp
    have := ih (fun a ha => h a (List.mem_cons_of_mem _ ha))
    simp only [List.flatten_cons, List.length_append, List.length_cons]
    omega

/-- The coalescer emits at most one merged slot per input row. -/
theorem coalesceSlots_length_le (rows : List (Option RawSlot)) :
    (coalesceSlots rows).length ≤ rows.length := by
  rw [coalesceSlots_eq]
  set L := sortSlots (rows.filterMap normalizeSlot) with hL
  have h1 : (((coalesceGroups L).map Acc.periodsRaw).flatten) = L.map Slot.Period := by
    unfold coalesceGroups
    simpa using foldl_coalesceStep_flatten L []
  have h2 : ∀ x ∈ (coalesceGroups L).map Acc.periodsRaw, x ≠ [] := by
    intro x hx
    rcases List.mem_map.mp hx with ⟨a, ha, rfl⟩
    have ha' : a ∈ L.foldl coalesceStep [] := by
      unfold coalesceGroups at ha
      exact List.mem_reverse.mp ha
    exact foldl_coalesceStep_ne_nil L [] (by simp) a ha'
  have h3 := length_le_flatten_length ((coalesceGroups L).map Acc.periodsRaw) h2
  rw [h1] at h3
  simp only [List.length_map] at h3
  have h4 : L.length = (rows.filterMap normalizeSlot).length := by
    rw [hL]
    unfold sortSlots
    exact List.length_mergeSort _
  have h5 : (rows.filterMap normalizeSlot).length ≤ rows.length :=
    List.length_filterMap_le _ _
  simp only [List.length_map]
  omega

/-! ## Helper lemmas: spec equivalences -/

/-- `slotsTouch` computes exactly the amended touching predicate. -/
theorem slotsTouch_eq_spec (c : Acc) (n : Slot) : slotsTouch c n = specTouchAmended c n := by
  have hP : slotsTouchPeriod c n =
      (match (c.periodsRaw.getLast?).bind parsePeriodNumber, parsePeriodNumber n.Period with
        | some l, some m => JNum.eqv m (JNum.addOne l)
        | _, _ => false) := by
    unfold slotsTouchPeriod
    cases hg : c.periodsRaw.getLast? <;> rfl
  unfold slotsTouch specTouchAmended
  cases h1 : timeToMinutes c.End with
  | none => cases h2 : timeToMinutes n.Start <;> simp [hP]
  | some e =>
    cases h2 : timeToMinutes n.Start with
    | none => simp [hP]
    | some s =>
      by_cases heq : s = e
      · subst heq; simp
      · simp [heq, Ne.symm heq, hP]

/-- The tail of the sequential check, as all-pairs over a zip. -/
theorem seqFrom_eq_zip :
    ∀ (xs : List (Option JNum)) (prev : JNum),
      seqFrom prev xs = (xs.all Option.isSome && ((some prev :: xs).zip xs).all pairOk) := by
  intro xs
  induction xs with
  | nil => intro prev; simp [seqFrom]
  | cons x t ih =>
    intro prev
    cases x with
    | none => simp [seqFrom, pairOk]
    | some m =>
      show (JNum.eqv m (JNum.addOne prev) && seqFrom m t) = _
      rw [ih]
      simp only [List.all_cons, List.zip_cons_cons, Option.isSome_some, Bool.true_and]
      rw [show pairOk (some prev, some m) = JNum.eqv m (JNum.addOne prev) from rfl]
      rw [Bool.and_left_comm]

/-- The sequential check of `formatPeriodLabel`, as all-pairs over a zip. -/
theorem sequentialNums_eq_zip (xs : List (Option JNum)) :
    sequentialNums xs = (xs.all Option.isSome && (xs.zip xs.tail).all pairOk) := by
  cases xs with
  | nil => rfl
  | cons x t =>
    cases x with
    | none => simp [sequentialNums, pairOk]
    | some m =>
      show seqFrom m t = _
      rw [seqFrom_eq_zip]
      simp

/-! ## Helper lemmas: deduplication -/

/-- `dedupFirstAux` yields a sublist (hence preserves received order). -/
theorem dedupFirstAux_sublist :
    ∀ (l seen : List String), List.Sublist (dedupFirstAux seen l) l := by
  intro l
  induction l with
  | nil => intro seen; simp [dedupFirstAux]
  | cons x xs ih =>
    intro seen
    unfold dedupFirstAux
    by_cases h : x ∈ seen
    · simp only [if_pos h]
      exact (ih seen).cons x
    · simp only [if_neg h]
      exact (ih (seen ++ [x])).cons₂ x

/-- Membership in `dedupFirstAux`: in the list and not yet seen. -/
theorem mem_dedupFirstAux :
    ∀ (l seen : List String) (y : String),
      y ∈ dedupFirstAux seen l ↔ y ∈ l ∧ y ∉ seen := by
  intro l
  induction l with
  | nil => intro seen y; simp [dedupFirstAux]
  | cons x xs ih =>
    intro seen y
    unfold dedupFirstAux
    by_cases h : x ∈ seen
    · rw [if_pos h, ih, List.mem_cons]
      constructor
      · rintro ⟨h1, h2⟩; exact ⟨Or.inr h1, h2⟩
      · rintro ⟨h1 | h1, h2⟩
        · exact absurd (h1 ▸ h) h2
        · exact ⟨h1, h2⟩
    · rw [if_neg h, List.mem_cons, ih, List.mem_cons, List.mem_append, List.mem_singleton]
      constructor
      · rintro (rfl | ⟨h1, h2⟩)
        · exact ⟨Or.inl rfl, h⟩
        · exact ⟨Or.inr h1, fun hs => h2 (Or.inl hs)⟩
      · rintro ⟨rfl | h1, h2⟩
        · exact Or.inl rfl
        · by_cases hyx : y = x
          · exact Or.inl hyx
          · exact Or.inr ⟨h1, fun hs => hs.elim h2 hyx⟩

/-- `dedupFirstAux` never repeats an element. -/
theorem dedupFirstAux_nodup : ∀ (l seen : List String), (dedupFirstAux seen l).Nodup := by
  intro l
  induction l with
  | nil => intro seen; simp [dedupFirstAux]
  | cons x xs ih =>
    intro seen
    unfold dedupFirstAux
    by_cases h : x ∈ seen
    · simp only [if_pos h]; exact ih seen
    · simp only [if_neg h]
      rw [List.nodup_cons]
      refine ⟨fun hx => ?_, ih (seen ++ [x])⟩
      exact ((mem_dedupFirstAux xs (seen ++ [x]) x).mp hx).2 (by simp)

/-- `formatPeriodLabel` computes exactly the amended label rule. -/
theorem formatPeriodLabel_eq_spec (l : List String) :
    formatPeriodLabel l = specLabelAmended l := by
  unfold formatPeriodLabel specLabelAmended
  cases hfc : (l.map (fun p => jsTrim p)).filter (fun p => p ≠ "") with
  | nil => simp
  | cons p rest =>
    cases rest with
    | nil => simp
    | cons q t =>
      dsimp only
      rw [show sequentialNums ((p :: q :: t).map parsePeriodNumber) =
            specSequentialB (p :: q :: t) from by rw [sequentialNums_eq_zip]; rfl]
      simp

/-- Transitivity of the day comparator. -/
theorem dayLe_trans : ∀ a b c : DayGroup, dayLe a b → dayLe b c → dayLe a c := by
  intro a b c h1 h2
  simp only [dayLe, decide_eq_true_eq] at *
  omega

/-- Totality of the day comparator. -/
theorem dayLe_total : ∀ a b : DayGroup, dayLe a b || dayLe b a := by
  intro a b
  simp only [dayLe]
  rcases Nat.le_total (orderIndex dayOrder a.Weekday) (orderIndex dayOrder b.Weekday) with h | h
  · simp [h]
  · simp [h]

/-- `sortDays` permutes its input. -/
theorem sortDays_perm (g : List DayGroup) : (sortDays g).Perm g :=
  List.mergeSort_perm g dayLe

/-- `sortDays` sorts by weekday order index. -/
theorem sortDays_sorted (g : List DayGroup) :
    (sortDays g).Pairwise
      (fun a b => orderIndex dayOrder a.Weekday ≤ orderIndex dayOrder b.Weekday) := by
  have h := List.sorted_mergeSort dayLe_trans dayLe_total g
  exact h.imp (fun hab => by simpa [dayLe] using hab)

/-- `sortDays` is stable: the groups of any fixed order index keep their
original relative order. -/
theorem sortDays_filter_stable (g : List DayGroup) (k : Nat) :
    (sortDays g).filter (fun d => decide (orderIndex dayOrder d.Weekday = k)) =
      g.filter (fun d => decide (orderIndex dayOrder d.Weekday = k)) := by
  set pk : DayGroup → Bool := fun d => decide (orderIndex dayOrder d.Weekday = k) with hpk
  have hmemF : ∀ d ∈ g.filter pk, orderIndex dayOrder d.Weekday = k := by
    intro d hd
    have h2 := (List.mem_filter.mp hd).2
    simpa [hpk] using h2
  have hpair : (g.filter pk).Pairwise (fun a b => dayLe a b = true) := by
    apply List.pairwise_of_forall_mem_list
    intro a ha b hb
    simp [dayLe, hmemF a ha, hmemF b hb]
  have hsub : List.Sublist (g.filter pk) g := List.filter_sublist g
  have h3 : List.Sublist (g.filter pk) (sortDays g) :=
    List.sublist_mergeSort dayLe_trans dayLe_total hpair hsub
  have h4 : (g.filter pk).filter pk = g.filter pk := by
    rw [List.filter_eq_self]
    intro a ha
    simp [hpk, hmemF a ha]
  have h5 : List.Sublist (g.filter pk) ((sortDays g).filter pk) := by
    have := h3.filter pk
    rwa [h4] at this
  have h6 : ((sortDays g).filter pk).length = (g.filter pk).length :=
    ((sortDays_perm g).filter pk).length_eq
  exact (h5.eq_of_length h6.symm).symm

/-- An `insertRowE` success performs exactly the total insertion. -/
theorem insertRowE_ok (m : List (String × List RawSlot)) (k : String) (r : RawSlot)
    (m' : List (String × List RawSlot)) (h : insertRowE m k r = .ok m') :
    m' = insertRow m k r := by
  unfold insertRowE at h
  split at h
  · injection h with h
    exact h.symm
  · split at h
    · simp at h
    · injection h with h
      exact h.symm

/-- A successful faithful bucket fold computes the total bucket fold. -/
theorem foldlM_insertRowE_ok :
    ∀ (rs : List (Option RawSlot)) (m m' : List (String × List RawSlot)),
      (rs.foldlM
        (fun m row =>
          match row with
          | none => pure m
          | some r => insertRowE m (rowBucketKey r) (rowBucketSlot r)) m) = Except.ok m' →
      rs.foldl
        (fun m row =>
          match row with
          | none => m
          | some r => insertRow m (rowBucketKey r) (rowBucketSlot r)) m = m' := by
  intro rs
  induction rs with
  | nil =>
    intro m m' h
    simp only [List.foldlM_nil] at h
    simp only [List.foldl_nil]
    exact Except.ok.inj h
  | cons row t ih =>
    intro m m' h
    cases row with
    | none =>
      simp only [List.foldlM_cons] at h
      simp only [List.foldl_cons]
      exact ih m m' h
    | some r =>
      simp only [List.foldlM_cons] at h
      cases he : insertRowE m (rowBucketKey r) (rowBucketSlot r) with
      | error e =>
        rw [he] at h
        exact Except.noConfusion h
      | ok m1 =>
        rw [he] at h
        simp only [List.foldl_cons]
        rw [← insertRowE_ok m (rowBucketKey r) (rowBucketSlot r) m1 he]
        exact ih m1 m' h

/-- Whenever the faithful `buildGroupedFromRowsE` succeeds (the source does
not throw), the total `buildGroupedFromRows` computes the same groups. -/
theorem buildGroupedFromRowsE_ok (rows : Option (List (Option RawSlot))) (order : List String)
    (g : List DayGroup) (h : buildGroupedFromRowsE rows order = .ok g) :
    buildGroupedFromRows rows order = g := by
  cases rows with
  | none =>
    simp only [buildGroupedFromRowsE] at h
    simp only [buildGroupedFromRows]
    exact Except.ok.inj h
  | some rs =>
    by_cases hrs : rs = []
    · subst hrs
      exact Except.ok.inj h
    · simp only [buildGroupedFromRowsE, if_neg hrs] at h
      simp only [buildGroupedFromRows, if_neg hrs]
      cases hm : (rs.foldlM
          (fun m row =>
            match row with
            | none => pure m
            | some r => insertRowE m (rowBucketKey r) (rowBucketSlot r))
          ([] : List (String × List RawSlot))) with
      | error e =>
        rw [hm] at h
        exact Except.noConfusion h
      | ok m =>
        rw [hm] at h
        have hf := foldlM_insertRowE_ok rs [] m hm
        rw [hf]
        exact Except.ok.inj h

/-! ## The claims -/

/-- C1 counterexample: the claim as stated is false on the code.  With the
accumulator's last period label the empty string (which the claim says does
not parse) and no parseable times, the code still touches the next slot
labelled "1" — `Number("")` is `0` and `1 = 0 + 1` — and the coalescing
scan does merge the two slots into one. -/
theorem C1_counterexample :
    slotsTouch ⟨[""], "", "", "Math", "10A", "101", "math", "10a", "101"⟩
        ⟨"1", "", "", "Math", "10A", "101", "math", "10a", "101"⟩ = true ∧
    specTouchC1 ⟨[""], "", "", "Math", "10A", "101", "math", "10a", "101"⟩
        ⟨"1", "", "", "Math", "10A", "101", "math", "10a", "101"⟩ = false ∧
    (coalesceSlots
        [some ⟨.null, .str "", .str "", .str "", .str "Math", .str "10A", .str "101"⟩,
         some ⟨.null, .str "1", .str "", .str "", .str "Math", .str "10A", .str "101"⟩]).length =
      1 := by
  refine ⟨by decide, by decide, ?_⟩
  have h1 :
      List.filterMap normalizeSlot
        [some ⟨.null, .str "", .str "", .str "", .str "Math", .str "10A", .str "101"⟩,
         some ⟨.null, .str "1", .str "", .str "", .str "Math", .str "10A", .str "101"⟩] =
      [⟨"", "", "", "Math", "10A", "101", "math", "10a", "101"⟩,
       ⟨"1", "", "", "Math", "10A", "101", "math", "10a", "101"⟩] := by decide
  have h2 :
      sortSlots
        [⟨"", "", "", "Math", "10A", "101", "math", "10a", "101"⟩,
         ⟨"1", "", "", "Math", "10A", "101", "math", "10a", "101"⟩] =
      [⟨"", "", "", "Math", "10A", "101", "math", "10a", "101"⟩,
       ⟨"1", "", "", "Math", "10A", "101", "math", "10a", "101"⟩] :=
    List.mergeSort_of_sorted (by decide)
  unfold coalesceSlots
  rw [if_neg (by decide), h1, h2]
  decide

/-- C1 (amended): adjacent slots merge only if they touch, where touching
holds exactly when the accumulator's End and the next slot's Start both
parse as H:MM/HH:MM times and are equal, or the last constituent's period
label and the next slot's period label both coerce to finite JS numbers
(the empty string coercing to 0, non-integer numerals allowed) and the
next number equals the last plus one; when neither comparison is
parseable the slots do not touch and are not merged. -/
theorem C1_amended_touching :
    (∀ (current : Acc) (next : Slot), slotsTouch current next = specTouchAmended current next) ∧
    (∀ (last : Acc) (rest : List Acc) (next : Slot),
      specTouchAmended last next = false →
        coalesceStep (last :: rest) next = initAcc next :: last :: rest) := by
  refine ⟨slotsTouch_eq_spec, ?_⟩
  intro last rest next h
  simp [coalesceStep, slotsTouch_eq_spec, h]

/-- C1 witness: a concrete non-touching pair (periods "1" then "5") is not
merged; the scan pushes a fresh accumulator. -/
theorem C1_witness :
    specTouchAmended ⟨["1"], "", "", "Math", "10A", "101", "math", "10a", "101"⟩
        ⟨"5", "", "", "Math", "10A", "101", "math", "10a", "101"⟩ = false ∧
    coalesceStep [⟨["1"], "", "", "Math", "10A", "101", "math", "10a", "101"⟩]
        ⟨"5", "", "", "Math", "10A", "101", "math", "10a", "101"⟩ =
      [initAcc ⟨"5", "", "", "Math", "10A", "101", "math", "10a", "101"⟩,
       ⟨["1"], "", "", "Math", "10A", "101", "math", "10a", "101"⟩] :=
  ⟨by decide, C1_amended_touching.2 _ [] _ (by decide)⟩

/-- C2 counterexample: the claim as stated is false on the code.  Two slots
merge by time, the second (last) constituent's End is the empty string, yet
the merged slot's End is "9:50" — the first slot's End — because the code
overwrites End only with a truthy value, not unconditionally. -/
theorem C2_counterexample :
    runsOf (sortSlots (List.filterMap normalizeSlot
        [some ⟨.null, .str "1", .str "9:00", .str "9:50", .str "Math", .str "10A", .str "101"⟩,
         some ⟨.null, .str "2", .str "9:50", .str "", .str "Math", .str "10A", .str "101"⟩])) =
      [(⟨"1", "9:00", "9:50", "Math", "10A", "101", "math", "10a", "101"⟩,
        [⟨"2", "9:50", "", "Math", "10A", "101", "math", "10a", "101"⟩])] ∧
    coalesceSlots
        [some ⟨.null, .str "1", .str "9:00", .str "9:50", .str "Math", .str "10A", .str "101"⟩,
         some ⟨.null, .str "2", .str "9:50", .str "", .str "Math", .str "10A", .str "101"⟩] =
      [{ Period := "1-2", Start := "9:00", End := "9:50", Subject := "Math",
         Class := "10A", Room := "101" }] ∧
    (Slot.End ⟨"2", "9:50", "", "Math", "10A", "101", "math", "10a", "101"⟩ = "" ∧
      ("9:50" : String) ≠ "") := by
  have h1 :
      List.filterMap normalizeSlot
        [some ⟨.null, .str "1", .str "9:00", .str "9:50", .str "Math", .str "10A", .str "101"⟩,
         some ⟨.null, .str "2", .str "9:50", .str "", .str "Math", .str "10A", .str "101"⟩] =
      [⟨"1", "9:00", "9:50", "Math", "10A", "101", "math", "10a", "101"⟩,
       ⟨"2", "9:50", "", "Math", "10A", "101", "math", "10a", "101"⟩] := by decide
  have h2 :
      sortSlots
        [⟨"1", "9:00", "9:50", "Math", "10A", "101", "math", "10a", "101"⟩,
         ⟨"2", "9:50", "", "Math", "10A", "101", "math", "10a", "101"⟩] =
      [⟨"1", "9:00", "9:50", "Math", "10A", "101", "math", "10a", "101"⟩,
       ⟨"2", "9:50", "", "Math", "10A", "101", "math", "10a", "101"⟩] :=
    List.mergeSort_of_sorted (by decide)
  refine ⟨?_, ?_, by decide, by decide⟩
  · rw [h1, h2]; decide
  · unfold coalesceSlots
    rw [if_neg (by decide), h1, h2]
    decide

/-- C2 (amended): every merged slot of `coalesceSlots` is the rendering of
a run of constituent slots; its Subject, Class and Room equal those of the
first constituent, its period-label list is the constituents' labels in
order, its Start is the first constituent's Start when non-empty and
otherwise the first non-empty Start among the later constituents, and its
End is the last non-empty End among the later constituents, defaulting to
the first constituent's End (on a merge the accumulator's End becomes the
next slot's End only when that End is non-empty). -/
theorem C2_amended_merged_fields (rows : List (Option RawSlot)) :
    coalesceSlots rows =
      (runsOf (sortSlots (rows.filterMap normalizeSlot))).map
        (fun p => renderAcc (accOfRun p.1 p.2)) ∧
    List.Forall
      (fun p : Slot × List Slot =>
        (accOfRun p.1 p.2).Subject = p.1.Subject ∧
        (accOfRun p.1 p.2).Class = p.1.Class ∧
        (accOfRun p.1 p.2).Room = p.1.Room ∧
        (accOfRun p.1 p.2).periodsRaw = p.1.Period :: p.2.map Slot.Period ∧
        (accOfRun p.1 p.2).Start =
          (if p.1.Start = "" then ((p.2.map Slot.Start).find? nonEmptyStr).getD ""
           else p.1.Start) ∧
        (accOfRun p.1 p.2).End =
          (((p.2.map Slot.End).reverse).find? nonEmptyStr).getD p.1.End)
      (runsOf (sortSlots (rows.filterMap normalizeSlot))) := by
  constructor
  · rw [coalesceSlots_eq, coalesceGroups_eq_runsOf, List.map_map]
    rfl
  · rw [List.forall_iff_forall_mem]
    intro p _
    refine ⟨?_, ?_, ?_, ?_, ?_, ?_⟩
    · exact (foldl_mergeAcc_Subject p.2 (initAcc p.1)).trans rfl
    · exact (foldl_mergeAcc_Class p.2 (initAcc p.1)).trans rfl
    · exact (foldl_mergeAcc_Room p.2 (initAcc p.1)).trans rfl
    · rw [show (accOfRun p.1 p.2).periodsRaw = (p.2.foldl mergeAcc (initAcc p.1)).periodsRaw
          from rfl]
      rw [foldl_mergeAcc_periodsRaw]
      rfl
    · exact (foldl_mergeAcc_Start p.2 (initAcc p.1)).trans rfl
    · exact (foldl_mergeAcc_End p.2 (initAcc p.1)).trans rfl

/-- C3 counterexample: the claim as stated is false on the code.  The label
list ["2", "2"] renders as "2, 2" (duplicates retained), not the claimed
distinct-once "2"; and ["1.5", "2.5"] renders as the range "1.5-2.5" (the
code accepts any finite numbers stepping by one), not the claimed
comma-join of non-integer labels. -/
theorem C3_counterexample :
    formatPeriodLabel ["2", "2"] = "2, 2" ∧ specLabelC3 ["2", "2"] = "2" ∧
    formatPeriodLabel ["1.5", "2.5"] = "1.5-2.5" ∧
    specLabelC3 ["1.5", "2.5"] = "1.5, 2.5" ∧
    ("2, 2" : String) ≠ "2" ∧ ("1.5-2.5" : String) ≠ "1.5, 2.5" :=
  ⟨by decide, by decide, by decide, by decide, by decide, by decide⟩

/-- C3 (amended): the displayed label of a period-label list is: the em
dash for an empty (filtered) list; a single label unchanged; "first-last"
when every label coerces to a finite JS number and each successive number
equals the previous plus one; and otherwise the filtered labels — in
order, duplicates retained — joined with ", ". -/
theorem C3_amended_period_label : ∀ l : List String, formatPeriodLabel l = specLabelAmended l :=
  formatPeriodLabel_eq_spec

/-- C4: the two touching "Math"/"10A"/"101" slots 9:00-9:50 and 9:50-10:40
with periods 1 and 2 coalesce to exactly one merged slot with period label
"1-2", Start "9:00" and End "10:40". -/
theorem C4_merge_by_time :
    coalesceSlots
        [some ⟨.null, .num 1, .str "9:00", .str "9:50", .str "Math", .str "10A", .str "101"⟩,
         some ⟨.null, .num 2, .str "9:50", .str "10:40", .str "Math", .str "10A", .str "101"⟩] =
      [{ Period := "1-2", Start := "9:00", End := "10:40", Subject := "Math",
         Class := "10A", Room := "101" }] := by
  have h1 :
      List.filterMap normalizeSlot
        [some ⟨.null, .num 1, .str "9:00", .str "9:50", .str "Math", .str "10A", .str "101"⟩,
         some ⟨.null, .num 2, .str "9:50", .str "10:40", .str "Math", .str "10A", .str "101"⟩] =
      [⟨"1", "9:00", "9:50", "Math", "10A", "101", "math", "10a", "101"⟩,
       ⟨"2", "9:50", "10:40", "Math", "10A", "101", "math", "10a", "101"⟩] := by decide
  have h2 :
      sortSlots
        [⟨"1", "9:00", "9:50", "Math", "10A", "101", "math", "10a", "101"⟩,
         ⟨"2", "9:50", "10:40", "Math", "10A", "101", "math", "10a", "101"⟩] =
      [⟨"1", "9:00", "9:50", "Math", "10A", "101", "math", "10a", "101"⟩,
       ⟨"2", "9:50", "10:40", "Math", "10A", "101", "math", "10a", "101"⟩] :=
    List.mergeSort_of_sorted (by decide)
  unfold coalesceSlots
  rw [if_neg (by decide), h1, h2]
  decide

/-- C5: the claim is the spec's own error-handling design ("the core never
throws"), and the code violates it by a slip: a row whose `Weekday` is the
malformed text "constructor" (inside the claimed input space) makes the
source's `buildGroupedFromRows` throw a TypeError, because `grouped[day]`
finds the truthy inherited `Object.prototype.constructor`, the bucket is
never initialized, and `grouped[day].push` is undefined.  The faithful
model errors at exactly that input, while the total association-list model
(used by the other claims, and proven to agree whenever no throw occurs)
builds the bucket silently. -/
theorem C5_code_bug :
    buildGroupedFromRowsE
        (some [some ⟨.str "constructor", .str "1", .str "9:00", .str "9:50",
          .str "Math", .str "10A", .str "101"⟩]) dayOrder =
      .error "TypeError: grouped[day].push is not a function" ∧
    buildGroupedFromRows
        (some [some ⟨.str "constructor", .str "1", .str "9:00", .str "9:50",
          .str "Math", .str "10A", .str "101"⟩]) dayOrder =
      [⟨.str "constructor",
        some [some ⟨.null, .str "1", .str "9:00", .str "9:50",
          .str "Math", .str "10A", .str "101"⟩]⟩] := by
  constructor
  · rfl
  · have hf1 : List.filter isArrayIndexKey ["constructor"] = [] := by decide
    have hf2 : List.filter (fun k => !isArrayIndexKey k) ["constructor"] = ["constructor"] := by
      decide
    simp [buildGroupedFromRows, objectKeys, insertRow, rowBucketKey, rowBucketSlot,
      nullishStr, truthy, jsToString, lookupBucket, hf1, hf2]

/-- C7: with an empty or absent rows array and an absent or empty grouped
array, `formatFullTimetable` returns exactly the literal no-entries message
with the teacher resolved by the fallback chain (timetable.teacher if
truthy, else a truthy first element of teachers, else "Teacher"). -/
theorem C7_empty_timetable :
    ∀ (tt : Timetable) (title notes : JsVal) (teachers : Option (List JsVal)),
      (tt.rows = none ∨ tt.rows = some []) →
      (tt.grouped = none ∨ tt.grouped = some []) →
      formatFullTimetable (some tt) title notes teachers =
        "No timetable entries found for " ++
          jsToString (specTeacherC7 tt.teacher teachers) ++ "." := by
  intro tt title notes teachers hr hg
  obtain ⟨teacher, grouped, rows⟩ := tt
  simp only at hr hg
  have hb : buildGroupedFromRows rows dayOrder = [] := by
    rcases hr with hr | hr <;> subst hr <;> simp [buildGroupedFromRows]
  rcases hg with hg | hg <;> subst hg <;>
    simp [formatFullTimetable, hb, specTeacherC7]

/-- C7 witness: a concrete empty timetable with no teacher and teachers
list ["Amy"] yields the literal message for Amy. -/
theorem C7_witness :
    formatFullTimetable (some ⟨.null, none, some []⟩) .null .null (some [.str "Amy"]) =
      "No timetable entries found for Amy." := by
  rw [C7_empty_timetable ⟨.null, none, some []⟩ .null .null (some [.str "Amy"])
    (Or.inr rfl) (Or.inl rfl)]
  decide

/-- C9: normalization is idempotent — re-normalizing the raw object a
normalized slot denotes reproduces the slot, all six display fields and
the three grouping keys included. -/
theorem C9_normalize_idempotent :
    ∀ (r : Option RawSlot) (s : Slot),
      normalizeSlot r = some s → normalizeSlot (slotToRaw s) = some s := by
  intro r s h
  cases r with
  | none => simp [normalizeSlot] at h
  | some raw =>
    simp only [normalizeSlot, Option.some.injEq] at h
    subst h
    simp only [normalizeSlot, slotToRaw, toTrimmed_str, jsTrim_toTrimmed]

/-- C9 witness: a concrete raw slot (with padding around the period label)
normalizes, and re-normalizing the result reproduces it exactly. -/
theorem C9_witness :
    normalizeSlot (slotToRaw ⟨"1", "9:00", "9:50", "Math", "10A", "101", "math", "10a", "101"⟩) =
      some ⟨"1", "9:00", "9:50", "Math", "10A", "101", "math", "10a", "101"⟩ :=
  C9_normalize_idempotent
    (some ⟨.null, .str " 1 ", .str "9:00", .str "9:50", .str "Math", .str "10A", .str "101"⟩)
    ⟨"1", "9:00", "9:50", "Math", "10A", "101", "math", "10a", "101"⟩ (by decide)

/-- C10: coalescing conserves slots — the merged slots are exactly the
scan's groups, the concatenation of the groups' period-label lists in
output order is the period-label sequence of the sorted normalized slots
(so each surviving slot contributes its label to exactly one merged slot),
and consequently the output has at most as many merged slots as input
rows. -/
theorem C10_conservation :
    ∀ rows : List (Option RawSlot),
      coalesceSlots rows =
        (coalesceGroups (sortSlots (rows.filterMap normalizeSlot))).map renderAcc ∧
      ((coalesceGroups (sortSlots (rows.filterMap normalizeSlot))).map Acc.periodsRaw).flatten =
        (sortSlots (rows.filterMap normalizeSlot)).map Slot.Period ∧
      (coalesceSlots rows).length ≤ rows.length := by
  intro rows
  refine ⟨coalesceSlots_eq rows, ?_, coalesceSlots_length_le rows⟩
  unfold coalesceGroups
  simpa using foldl_coalesceStep_flatten (sortSlots (rows.filterMap normalizeSlot)) []

/-- C8 counterexample: the claim as stated is false on the code.  With a
descriptor whose `message` is the (falsy) empty string, the heading echoed
is the default "Multiple matches found.", not `descriptor.message`. -/
theorem C8_counterexample :
    formatClarifyMessage ⟨some ["Jane Smith"], .str "Jane", .str ""⟩ .null =
      "**Multiple matches found.**\n\n“Jane” matches multiple teachers. Please select one of the following:\n\n- Jane Smith\n\nReply with the full name to continue." ∧
    ((formatClarifyMessage ⟨some ["Jane Smith"], .str "Jane", .str ""⟩ .null).data.takeWhile
        (fun c => c ≠ '\n')) = ("**Multiple matches found.**" : String).data ∧
    ("**Multiple matches found.**" : String) ≠ "**" ++ jsToString (.str "") ++ "**" :=
  ⟨by decide, by decide, by decide⟩

/-- C8 (amended): the deduplicated candidate list is the distinct truthy
candidates, each exactly once, in the order received; when it is non-empty
the message lists exactly those candidates in that order, and when it is
empty the generic please-be-more-specific message referencing the
descriptor's input is produced; both variants echo `descriptor.message` as
the heading when it is truthy and the default "Multiple matches found."
otherwise. -/
theorem C8_amended_clarify :
    ∀ (d : Clarify) (q : JsVal),
      (dedupFirst (clarifyCandidates d)).Nodup ∧
      List.Sublist (dedupFirst (clarifyCandidates d)) (clarifyCandidates d) ∧
      (∀ x, x ∈ dedupFirst (clarifyCandidates d) ↔ x ∈ clarifyCandidates d) ∧
      (dedupFirst (clarifyCandidates d) ≠ [] →
        formatClarifyMessage d q =
          joinNl
            ["**" ++ (if truthy d.message then jsToString d.message
                      else "Multiple matches found.") ++ "**",
             "",
             "“" ++ (if truthy d.input then jsToString d.input else "") ++
               "” matches multiple teachers. Please select one of the following:",
             "",
             joinNl ((dedupFirst (clarifyCandidates d)).map (fun name => "- " ++ name)),
             "",
             "Reply with the full name to continue."]) ∧
      (dedupFirst (clarifyCandidates d) = [] →
        formatClarifyMessage d q =
          joinNl
            ((["**" ++ (if truthy d.message then jsToString d.message
                        else "Multiple matches found.") ++ "**",
               "",
               "“" ++ (if truthy d.input then jsToString d.input else "") ++
                 "” matches multiple teachers. Please provide a more specific name so I can continue.",
               if truthy q then "Original question: _" ++ jsToString q ++ "_"
               else ""]).filter (fun s => s ≠ ""))) := by
  intro d q
  refine ⟨dedupFirstAux_nodup _ [], dedupFirstAux_sublist _ [], ?_, ?_, ?_⟩
  · intro x
    rw [show dedupFirst (clarifyCandidates d) = dedupFirstAux [] (clarifyCandidates d) from rfl,
      mem_dedupFirstAux]
    simp
  · intro h
    simp only [clarifyCandidates] at h
    simp only [formatClarifyMessage, clarifyCandidates]
    rw [if_neg h]
  · intro h
    simp only [clarifyCandidates] at h
    simp only [formatClarifyMessage, clarifyCandidates]
    rw [if_pos h]

/-- C8 witness: a concrete descriptor with a duplicated candidate lists the
two distinct names once each, in input order. -/
theorem C8_witness :
    formatClarifyMessage ⟨some ["Jane Smith", "Jane Doe", "Jane Smith"], .str "Jane", .null⟩
        (.str "Who teaches 10A?") =
      joinNl ["**Multiple matches found.**", "",
        "“Jane” matches multiple teachers. Please select one of the following:", "",
        joinNl ["- Jane Smith", "- Jane Doe"], "",
        "Reply with the full name to continue."] := by
  have h :=
    (C8_amended_clarify ⟨some ["Jane Smith", "Jane Doe", "Jane Smith"], .str "Jane", .null⟩
      (.str "Who teaches 10A?")).2.2.2.1 (by decide)
  rw [h]
  decide

set_option maxRecDepth 8192 in
/-- C6: the formatter orders day sections by the fixed Mon..Sun ordering —
`sortDays` permutes the groups, sorts them by `orderIndex` (every
unrecognized code gets index 8, after all recognized days), and is stable
(groups of equal index keep their original relative order); concretely,
grouped data for ["Wed", "Mon"] renders Monday's section before
Wednesday's, and a group with code "XYZ" renders after the Mon..Sun
groups present. -/
theorem C6_day_ordering :
    (∀ g : List DayGroup,
      (sortDays g).Perm g ∧
      (sortDays g).Pairwise
        (fun a b => orderIndex dayOrder a.Weekday ≤ orderIndex dayOrder b.Weekday) ∧
      ∀ k : Nat,
        (sortDays g).filter (fun d => decide (orderIndex dayOrder d.Weekday = k)) =
          g.filter (fun d => decide (orderIndex dayOrder d.Weekday = k))) ∧
    formatFullTimetable
        (some ⟨.str "Jane",
          some
            [⟨.str "Wed",
              some [some ⟨.null, .str "3", .str "9:00", .str "9:50", .str "Sci", .str "9B", .str "202"⟩]⟩,
             ⟨.str "Mon",
              some [some ⟨.null, .str "1", .str "8:00", .str "8:50", .str "Math", .str "10A", .str "101"⟩]⟩],
          none⟩) .null .null none =
      "## Jane timetable\n\n### Monday\n| Period | Start | End | Subject | Class | Room |\n| --- | --- | --- | --- | --- | --- |\n| 1 | 8:00 | 8:50 | Math | 10A | 101 |\n\n### Wednesday\n| Period | Start | End | Subject | Class | Room |\n| --- | --- | --- | --- | --- | --- |\n| 3 | 9:00 | 9:50 | Sci | 9B | 202 |" ∧
    formatFullTimetable
        (some ⟨.str "Jane",
          some
            [⟨.str "XYZ",
              some [some ⟨.null, .str "3", .str "9:00", .str "9:50", .str "Sci", .str "9B", .str "202"⟩]⟩,
             ⟨.str "Mon",
              some [some ⟨.null, .str "1", .str "8:00", .str "8:50", .str "Math", .str "10A", .str "101"⟩]⟩],
          none⟩) .null .null none =
      "## Jane timetable\n\n### Monday\n| Period | Start | End | Subject | Class | Room |\n| --- | --- | --- | --- | --- | --- |\n| 1 | 8:00 | 8:50 | Math | 10A | 101 |\n\n### XYZ\n| Period | Start | End | Subject | Class | Room |\n| --- | --- | --- | --- | --- | --- |\n| 3 | 9:00 | 9:50 | Sci | 9B | 202 |" := by
  have hsci :
      coalesceSlots
          [some ⟨.null, .str "3", .str "9:00", .str "9:50", .str "Sci", .str "9B", .str "202"⟩] =
        [{ Period := "3", Start := "9:00", End := "9:50", Subject := "Sci",
           Class := "9B", Room := "202" }] := by
    have h1 :
        List.filterMap normalizeSlot
          [some ⟨.null, .str "3", .str "9:00", .str "9:50", .str "Sci", .str "9B", .str "202"⟩] =
        [⟨"3", "9:00", "9:50", "Sci", "9B", "202", "sci", "9b", "202"⟩] := by decide
    have h2 :
        sortSlots [⟨"3", "9:00", "9:50", "Sci", "9B", "202", "sci", "9b", "202"⟩] =
        [⟨"3", "9:00", "9:50", "Sci", "9B", "202", "sci", "9b", "202"⟩] :=
      List.mergeSort_singleton _
    unfold coalesceSlots
    rw [if_neg (by decide), h1, h2]
    decide
  have hmath :
      coalesceSlots
          [some ⟨.null, .str "1", .str "8:00", .str "8:50", .str "Math", .str "10A", .str "101"⟩] =
        [{ Period := "1", Start := "8:00", End := "8:50", Subject := "Math",
           Class := "10A", Room := "101" }] := by
    have h1 :
        List.filterMap normalizeSlot
          [some ⟨.null, .str "1", .str "8:00", .str "8:50", .str "Math", .str "10A", .str "101"⟩] =
        [⟨"1", "8:00", "8:50", "Math", "10A", "101", "math", "10a", "101"⟩] := by decide
    have h2 :
        sortSlots [⟨"1", "8:00", "8:50", "Math", "10A", "101", "math", "10a", "101"⟩] =
        [⟨"1", "8:00", "8:50", "Math", "10A", "101", "math", "10a", "101"⟩] :=
      List.mergeSort_singleton _
    unfold coalesceSlots
    rw [if_neg (by decide), h1, h2]
    decide
  refine ⟨fun g => ⟨sortDays_perm g, sortDays_sorted g, fun k => sortDays_filter_stable g k⟩,
    ?_, ?_⟩
  · have hs :
        sortDays
          [⟨.str "Wed",
            some [some ⟨.null, .str "3", .str "9:00", .str "9:50", .str "Sci", .str "9B", .str "202"⟩]⟩,
           ⟨.str "Mon",
            some [some ⟨.null, .str "1", .str "8:00", .str "8:50", .str "Math", .str "10A", .str "101"⟩]⟩] =
          [⟨.str "Mon",
            some [some ⟨.null, .str "1", .str "8:00", .str "8:50", .str "Math", .str "10A", .str "101"⟩]⟩,
           ⟨.str "Wed",
            some [some ⟨.null, .str "3", .str "9:00", .str "9:50", .str "Sci", .str "9B", .str "202"⟩]⟩] := by
      unfold sortDays
      rw [mergeSort_pair]
      decide
    simp [formatFullTimetable, hs, daySection, dayRowLine, hsci, hmath, truthy, jsToString,
      dayNames, coerceText, joinNl]
    decide
  · have hs :
        sortDays
          [⟨.str "XYZ",
            some [some ⟨.null, .str "3", .str "9:00", .str "9:50", .str "Sci", .str "9B", .str "202"⟩]⟩,
           ⟨.str "Mon",
            some [some ⟨.null, .str "1", .str "8:00", .str "8:50", .str "Math", .str "10A", .str "101"⟩]⟩] =
          [⟨.str "Mon",
            some [some ⟨.null, .str "1", .str "8:00", .str "8:50", .str "Math", .str "10A", .str "101"⟩]⟩,
           ⟨.str "XYZ",
            some [some ⟨.null, .str "3", .str "9:00", .str "9:50", .str "Sci", .str "9B", .str "202"⟩]⟩] := by
      unfold sortDays
      rw [mergeSort_pair]
      decide
    simp [formatFullTimetable, hs, daySection, dayRowLine, hsci, hmath, truthy, jsToString,
      dayNames, coerceText, joinNl]
    decide

end TT
